import Mathlib

/-!
Verification development for the LexAI research pipeline
(src/app/agent.py): the source registry built by
`collect_research_sources_callback`, the citation rewriter
`citation_replacement_callback`, the `EscalationChecker` gate and the
`iterative_refinement_loop` wiring of `research_pipeline`.

Python dicts are modelled as association lists in insertion order
(Python dicts preserve insertion order; inserting a fresh key appends,
updating an existing key rewrites it in place).  Optional fields of the
external grounding metadata (`google.genai` types) are modelled with
`Option`.  Confidence scores are floats that are only ever copied,
never computed with, so they are modelled as rationals.
-/

/-- Association-list lookup, the model of Python `dict.get`/`dict[k]`:
returns the value of the first matching key. -/
def alookup {κ α : Type} [BEq κ] (l : List (κ × α)) (k : κ) : Option α :=
  (l.find? (fun p => p.1 == k)).map (fun p => p.2)

/-- One supported claim recorded for a source:
`{"text_segment": ..., "confidence": ...}` in the Python dict. -/
structure SupportedClaim where
  text_segment : String
  confidence : ℚ
  deriving Repr, DecidableEq

/-- One source entry, the dict
`{"short_id", "title", "url", "domain", "supported_claims"}` built at
src/app/agent.py:97-103.  The `title` and `domain` values come from the
optional `chunk.web.title` / `chunk.web.domain` fields and may be the
Python value `None`, modelled as `Option.none`; the keys themselves are
always present in the dict. -/
structure Source where
  short_id : String
  title : Option String
  url : String
  domain : Option String
  supported_claims : List SupportedClaim
  deriving Repr, DecidableEq

abbrev Sources := List (String × Source)

/-- The registry state: the session-state keys `url_to_short_id` and
`sources` read and written by `collect_research_sources_callback`. -/
structure Registry where
  url_to_short_id : List (String × String)
  sources : Sources
  deriving Repr, DecidableEq

def emptyRegistry : Registry := ⟨[], []⟩

/-- `chunk.web`: a web reference of a grounding chunk (external
`google.genai` data; `uri` is the deduplication key). -/
structure WebInfo where
  uri : String
  title : Option String
  domain : Option String
  deriving Repr, DecidableEq

/-- One grounding chunk; `web` may be absent (agent.py:86-87 skips such
chunks). -/
structure Chunk where
  web : Option WebInfo
  deriving Repr, DecidableEq

/-- `support.segment` of a grounding support. -/
structure Segment where
  text : String
  deriving Repr, DecidableEq

/-- One grounding support (agent.py:107-122): chunk indices, optional
confidence scores aligned positionally with them, and an optional
segment. -/
structure Support where
  confidence_scores : Option (List ℚ)
  grounding_chunk_indices : Option (List Nat)
  segment : Option Segment
  deriving Repr, DecidableEq

structure GroundingMetadata where
  grounding_chunks : List Chunk
  grounding_supports : List Support
  deriving Repr, DecidableEq

/-- One session event; `grounding_metadata` may be absent, in which case
the event is skipped (agent.py:82-83). -/
structure GEvent where
  grounding_metadata : Option GroundingMetadata
  deriving Repr, DecidableEq

/-- Body of the chunk loop at agent.py:85-105.  The accumulator carries
the registry, the short-id counter `id_counter`, and the local
`chunks_info` map from chunk index to short id. -/
def mintChunk (acc : Registry × Nat × List (Nat × String)) (ic : Nat × Chunk) :
    Registry × Nat × List (Nat × String) :=
  let reg := acc.1
  let id_counter := acc.2.1
  let chunks_info := acc.2.2
  match ic.2.web with
  | none => acc
  | some web =>
    let url := web.uri
    -- agent.py:89-93; note this conditional always evaluates to `web.title`.
    let title := if web.title ≠ web.domain then web.title else web.domain
    match alookup reg.url_to_short_id url with
    | some sid => (reg, id_counter, chunks_info ++ [(ic.1, sid)])
    | none =>
      let sid := "src-" ++ toString id_counter
      ({ url_to_short_id := reg.url_to_short_id ++ [(url, sid)],
         sources := reg.sources ++
           [(sid, { short_id := sid, title := title, url := url,
                    domain := web.domain, supported_claims := [] })] },
       id_counter + 1,
       chunks_info ++ [(ic.1, sid)])

/-- `sources[short_id]["supported_claims"].append(...)` at
agent.py:117-122: append one claim to the entry with the given key. -/
def appendClaim (srcs : Sources) (sid : String) (c : SupportedClaim) : Sources :=
  srcs.map (fun p =>
    if p.1 == sid then
      (p.1, { p.2 with supported_claims := p.2.supported_claims ++ [c] })
    else p)

/-- Body of the inner index loop at agent.py:110-122, for the pair
`p = (i, chunk_idx)` produced by `enumerate(chunk_indices)`:
`confidence_scores[i] if i < len(confidence_scores) else 0.5`, the
segment text or `""`, appended to the source of `chunks_info[chunk_idx]`
when that chunk index is present. -/
def supportStep (support : Support) (chunks_info : List (Nat × String))
    (acc : Sources) (p : Nat × Nat) : Sources :=
  match alookup chunks_info p.2 with
  | none => acc
  | some sid =>
    let confidence_scores := support.confidence_scores.getD []
    let confidence : ℚ :=
      if h : p.1 < confidence_scores.length then confidence_scores.get ⟨p.1, h⟩
      else (1 : ℚ) / 2
    let text_segment :=
      match support.segment with
      | some seg => seg.text
      | none => ""
    appendClaim acc sid ⟨text_segment, confidence⟩

/-- Body of the support loop at agent.py:107-122, with
`chunk_indices = support.grounding_chunk_indices or []`. -/
def processSupport (chunks_info : List (Nat × String)) (srcs : Sources)
    (support : Support) : Sources :=
  (support.grounding_chunk_indices.getD []).enum.foldl
    (supportStep support chunks_info) srcs

/-- Body of the event loop at agent.py:81-122. -/
def processEvent (acc : Registry × Nat) (event : GEvent) : Registry × Nat :=
  match event.grounding_metadata with
  | none => acc
  | some md =>
    if md.grounding_chunks.isEmpty then acc
    else
      let r := md.grounding_chunks.enum.foldl mintChunk (acc.1, acc.2, [])
      let srcs := md.grounding_supports.foldl (processSupport r.2.2) r.1.sources
      ({ r.1 with sources := srcs }, r.2.1)

/-- `collect_research_sources_callback` (agent.py:65-124), as a function
from the current registry state and the session's events to the updated
registry state.  `id_counter` is initialised to
`len(url_to_short_id) + 1` (agent.py:80). -/
def collect_research_sources_callback (reg : Registry) (events : List GEvent) :
    Registry :=
  (events.foldl processEvent (reg, reg.url_to_short_id.length + 1)).1

/-! ## Evaluation gate and refinement loop

`Feedback` (agent.py:48-60) is stored in session state under the key
`research_evaluation` (the `output_key` of `research_evaluator`).
`EscalationChecker._run_async_impl` (agent.py:170-184) escalates iff the
stored result is present and its grade equals "pass".

The loop driver `LoopAgent` belongs to the external `google.adk`
library.  Modelled from the spec: the RefinementLoop driver (spec 4.4)
runs its sub-agents in order each iteration, halts immediately in the
terminal Escalated state as soon as a sub-agent escalates (skipping the
remaining sub-agents of that iteration), and halts in the terminal
Exhausted state once `max_iterations` iterations completed without an
escalation.  The sub-agent wiring `[research_evaluator,
enhanced_search_executor]` and `max_iterations = 2` are from
src/app/agent.py:292-299; `LlmAgent` sub-agents never escalate. -/

structure Feedback where
  grade : String
  comment : String
  follow_up_queries : Option (List String)
  deriving Repr, DecidableEq

/-- The escalation condition of `EscalationChecker._run_async_impl`
(agent.py:174): `evaluation_result and evaluation_result.get("grade") == "pass"`. -/
def shouldStop (evaluation_result : Option Feedback) : Bool :=
  match evaluation_result with
  | none => false
  | some r => r.grade == "pass"

/-- Session state observed by the refinement loop: the latest
`research_evaluation` plus instrumentation counting how many evaluation
steps and follow-up-search steps ran. -/
structure SessState where
  research_evaluation : Option Feedback
  evalCount : Nat
  searchCount : Nat
  deriving Repr, DecidableEq

def initState : SessState := ⟨none, 0, 0⟩

inductive LoopStatus where
  | Running
  | Escalated
  | Exhausted
  deriving Repr, DecidableEq

/-- A sub-agent as a state transformer returning the updated session
state and whether it escalated. -/
abbrev AgentStep := SessState → SessState × Bool

/-- `research_evaluator` (agent.py:239-252): an external evaluation step
whose n-th invocation writes the n-th grade of the run to the
`research_evaluation` state key; it never escalates. -/
def research_evaluator_step (grades : Nat → Feedback) : AgentStep := fun s =>
  ({ s with research_evaluation := some (grades s.evalCount),
            evalCount := s.evalCount + 1 }, false)

/-- `enhanced_search_executor` (agent.py:254-269): the follow-up-search
step; it never escalates. -/
def enhanced_search_executor_step : AgentStep := fun s =>
  ({ s with searchCount := s.searchCount + 1 }, false)

/-- `EscalationChecker` as a loop sub-agent: escalates iff `shouldStop`
holds of the stored evaluation.  Defined in src (agent.py:164-184) but
never placed in any agent list of the pipeline. -/
def escalation_checker_step : AgentStep := fun s =>
  (s, shouldStop s.research_evaluation)

/-- Run one iteration's sub-agents in order, stopping at the first
escalation. -/
def runSubAgents : List AgentStep → SessState → SessState × Bool
  | [], s => (s, false)
  | a :: rest, s =>
    let r := a s
    if r.2 then (r.1, true) else runSubAgents rest r.1

/-- The LoopAgent driver (see the section comment above): up to
`max_iterations` iterations, terminal Escalated on escalation, terminal
Exhausted when the budget runs out. -/
def runLoopAgent : Nat → List AgentStep → SessState → SessState × LoopStatus
  | 0, _, s => (s, .Exhausted)
  | n + 1, agents, s =>
    let r := runSubAgents agents s
    if r.2 then (r.1, .Escalated) else runLoopAgent n agents r.1

/-- The sub-agent list of `iterative_refinement_loop`
(agent.py:292-299): only the evaluator and the follow-up searcher; the
`EscalationChecker` is not wired in. -/
def iterative_refinement_loop_sub_agents (grades : Nat → Feedback) :
    List AgentStep :=
  [research_evaluator_step grades, enhanced_search_executor_step]

/-- `max_iterations=2` at agent.py:294. -/
def iterative_refinement_loop_max_iterations : Nat := 2

/-- Modelled from the spec: the loop wiring the spec describes (spec
4.4, with the EscalationChecker consulted right after each evaluation;
this is not the wiring in src/app/agent.py). -/
def spec_refinement_loop_sub_agents (grades : Nat → Feedback) :
    List AgentStep :=
  [research_evaluator_step grades, escalation_checker_step,
   enhanced_search_executor_step]


/-! ## Citation rewriting

`citation_replacement_callback` (agent.py:127-160) substitutes the
regex `<cite\s+source\s*=\s*["']?\s*(src-\d+)\s*["']?\s*/>` over the
draft (agent.py:153-157) and then collapses whitespace before the
punctuation characters `. , ; :` (agent.py:158).

The regex is modelled by a deterministic greedy matcher, which is
equivalent here: every `\s*`/`\s+`/`\d+` item is followed by an item
that cannot match a character of its class, and each optional quote is
followed by items that cannot match a quote, so greedy consumption
never loses a match that backtracking would find.  `\s` and `\d` are
modelled over their ASCII ranges. -/

/-- Python's `\s` (ASCII range): space, tab, newline, carriage return,
vertical tab, form feed. -/
def isPySpace (c : Char) : Bool :=
  c == ' ' || c == '\t' || c == '\n' || c == '\r' || c == '\x0b' || c == '\x0c'

/-- The punctuation class `[.,;:]` of the normalization regex. -/
def isPunct (c : Char) : Bool :=
  c == '.' || c == ',' || c == ';' || c == ':'

/-- Consume a literal string, or fail. -/
def expectStr : List Char → List Char → Option (List Char)
  | [], l => some l
  | _ :: _, [] => none
  | e :: erest, c :: crest =>
    if c == e then expectStr erest crest else none

/-- `\s*`: greedily consume whitespace. -/
def dropWs (l : List Char) : List Char := l.dropWhile isPySpace

/-- `["']?`: consume one quote if present. -/
def dropQuoteOpt : List Char → List Char
  | [] => []
  | c :: rest => if c == '"' || c == '\'' then rest else c :: rest

/-- `\s+`: at least one whitespace character, then greedily the rest. -/
def ws1 : List Char → Option (List Char)
  | [] => none
  | c :: rest => if isPySpace c then some (dropWs rest) else none

/-- A successful match of the citation-marker regex at the head of the
input: the captured digits of group 1 and the remaining input after the
match. -/
structure CiteMatch where
  digits : List Char
  remaining : List Char
  deriving Repr, DecidableEq

/-- The captured `src-<digits>` token (group 1 of the regex). -/
def CiteMatch.sid (m : CiteMatch) : String := "src-" ++ m.digits.asString

/-- Match the citation-marker regex against the head of `l`. -/
def matchCiteFrom (l : List Char) : Option CiteMatch :=
  (expectStr "<cite".data l).bind fun l1 =>
  (ws1 l1).bind fun l2 =>
  (expectStr "source".data l2).bind fun l3 =>
  (expectStr "=".data (dropWs l3)).bind fun l4 =>
  (expectStr "src-".data (dropWs (dropQuoteOpt (dropWs l4)))).bind fun l5 =>
  if (l5.takeWhile Char.isDigit).isEmpty then none
  else
    (expectStr "/>".data
        (dropWs (dropQuoteOpt (dropWs (l5.dropWhile Char.isDigit))))).map
      fun l6 => { digits := l5.takeWhile Char.isDigit, remaining := l6 }

/-- `tag_replacer` (agent.py:145-151): look the captured short id up in
`sources`; if absent, replace with the empty string and log a warning
carrying the whole matched text; if present, replace with a single
leading space and the markdown link.

Python's `dict.get(k, default)` returns the stored value whenever the
key is present, even when that value is `None`; the source dicts built
by `collect_research_sources_callback` always contain the `title`,
`domain` and `url` keys, so `source_info.get("title",
source_info.get("domain", short_id))` is the stored title, rendered by
the f-string as the text `None` when the stored value is `None`. -/
def pyRender : Option String → String
  | some s => s
  | none => "None"

def tag_replacer (sources : Sources) (m : CiteMatch) (matchedText : String) :
    String × Option String :=
  match alookup sources m.sid with
  | none => ("", some ("Invalid citation tag found and removed: " ++ matchedText))
  | some source_info =>
    (" [" ++ pyRender source_info.title ++ "](" ++ source_info.url ++ ")", none)

/-- `re.sub` of the citation regex with `tag_replacer` (agent.py:153-157):
left-to-right scan replacing each leftmost non-overlapping match,
collecting the logged warnings.  Fuel-indexed for structural recursion;
`fuel ≥ length` always holds on the call paths used below because every
match consumes at least one character. -/
def substCitesGo (sources : Sources) : Nat → List Char → List Char × List String
  | 0, l => (l, [])
  | _ + 1, [] => ([], [])
  | fuel + 1, c :: rest =>
    match matchCiteFrom (c :: rest) with
    | some m =>
      let matched := (c :: rest).take ((c :: rest).length - m.remaining.length)
      let rep := tag_replacer sources m matched.asString
      let q := substCitesGo sources fuel m.remaining
      (rep.1.data ++ q.1, (rep.2.elim [] (fun w => [w])) ++ q.2)
    | none =>
      let q := substCitesGo sources fuel rest
      (c :: q.1, q.2)

def substCites (sources : Sources) (draft : String) : String × List String :=
  let q := substCitesGo sources draft.data.length draft.data
  (q.1.asString, q.2)

/-- `re.sub(r"\s+([.,;:])", r"\1", ...)` (agent.py:158): each maximal
whitespace run immediately followed by one of `. , ; :` is replaced by
that punctuation character.  (A match of `\s+([.,;:])` starting inside
a whitespace run extends exactly to the run's end, so scanning by
maximal runs is equivalent to the leftmost-match scan.) -/
def normPunctGo : Nat → List Char → List Char
  | 0, l => l
  | _ + 1, [] => []
  | fuel + 1, c :: rest =>
    if isPySpace c then
      match (c :: rest).span isPySpace with
      | (run, p :: t) =>
        if isPunct p then p :: normPunctGo fuel t
        else run ++ normPunctGo fuel (p :: t)
      | (run, []) => run
    else c :: normPunctGo fuel rest

def normPunct (s : String) : String := (normPunctGo s.data.length s.data).asString

/-- `citation_replacement_callback` (agent.py:127-160) on the drafted
report and the collected sources: the final report with citations, plus
the logged warnings. -/
def citation_replacement_callback (final_cited_report : String)
    (sources : Sources) : String × List String :=
  let q := substCites sources final_cited_report
  (normPunct q.1, q.2)

/-! ## Basic association-list lemmas -/

theorem alookup_eq_none_iff {α : Type} {l : List (String × α)} {k : String} :
    alookup l k = none ↔ k ∉ l.map Prod.fst := by
  induction l with
  | nil => simp [alookup]
  | cons p ps ih =>
    by_cases h : p.1 = k
    · have hf : List.find? (fun q => q.1 == k) (p :: ps) = some p :=
        List.find?_cons_of_pos _ (by simpa using h)
      simp [alookup, hf, h]
    · have hf : List.find? (fun q => q.1 == k) (p :: ps)
          = List.find? (fun q => q.1 == k) ps :=
        List.find?_cons_of_neg _ (by simpa using h)
      simp only [alookup, hf] at ih ⊢
      rw [ih]
      simp [Ne.symm h]

theorem alookup_mem_of_some {α : Type} {l : List (String × α)} {k : String}
    {v : α} (h : alookup l k = some v) : k ∈ l.map Prod.fst := by
  by_contra hk
  rw [← alookup_eq_none_iff] at hk
  rw [h] at hk
  exact Option.noConfusion hk

theorem alookup_isSome_of_mem {α : Type} {l : List (String × α)} {k : String}
    (h : k ∈ l.map Prod.fst) : ∃ v, alookup l k = some v := by
  cases hl : alookup l k with
  | none => exact absurd h (alookup_eq_none_iff.mp hl)
  | some v => exact ⟨v, rfl⟩

/-! ## C6: the evaluation gate -/

def failFb : Feedback := ⟨"fail", "needs work", some ["follow up"]⟩

def passFb : Feedback := ⟨"pass", "ok", none⟩

/-- C6: `shouldStop` returns true iff an evaluation result is present
and its grade equals "pass"; it returns false when the evaluation is
absent and when the grade is "fail". -/
theorem shouldStop_spec :
    (∀ e : Option Feedback,
        shouldStop e = true ↔ ∃ r, e = some r ∧ r.grade = "pass") ∧
    shouldStop none = false ∧
    (∀ r : Feedback, r.grade = "fail" → shouldStop (some r) = false) := by
  refine ⟨?_, rfl, ?_⟩
  · intro e
    cases e with
    | none => simp [shouldStop]
    | some r => simp [shouldStop]
  · intro r h
    simp [shouldStop, h]

theorem shouldStop_spec_witness :
    shouldStop (some passFb) = true ∧ shouldStop (some failFb) = false :=
  ⟨(shouldStop_spec.1 (some passFb)).mpr ⟨passFb, rfl, rfl⟩,
   shouldStop_spec.2.2 failFb rfl⟩

/-! ## C1 and C5: the refinement loop -/

/-- The run in which the first evaluation grades "fail" and the second
grades "pass". -/
def gradesFailPass : Nat → Feedback := fun i => if i = 0 then failFb else passFb

/-- C1: with `max_iterations = 2` and grades "fail" then "pass", the
loop as wired in src (no `EscalationChecker` among the loop's
sub-agents) performs 2 evaluation steps and 2 follow-up-search steps
and halts Exhausted, never Escalated; the wiring the spec describes,
with the checker consulted after each evaluation, performs 2 evaluation
steps and 1 follow-up-search step and halts Escalated. -/
theorem loop_fail_pass_code_vs_spec :
    runLoopAgent iterative_refinement_loop_max_iterations
        (iterative_refinement_loop_sub_agents gradesFailPass) initState
      = (⟨some passFb, 2, 2⟩, LoopStatus.Exhausted) ∧
    runLoopAgent iterative_refinement_loop_max_iterations
        (spec_refinement_loop_sub_agents gradesFailPass) initState
      = (⟨some passFb, 2, 1⟩, LoopStatus.Escalated) := by
  constructor <;> rfl

theorem runLoopAgent_code_counts (grades : Nat → Feedback) :
    ∀ (n : Nat) (s : SessState),
      (runLoopAgent n (iterative_refinement_loop_sub_agents grades) s).1.evalCount
          = s.evalCount + n ∧
      (runLoopAgent n (iterative_refinement_loop_sub_agents grades) s).1.searchCount
          = s.searchCount + n ∧
      (runLoopAgent n (iterative_refinement_loop_sub_agents grades) s).2
          = LoopStatus.Exhausted := by
  intro n
  induction n with
  | zero => intro s; exact ⟨rfl, rfl, rfl⟩
  | succ k ih =>
    intro s
    have h := ih ({ s with research_evaluation := some (grades s.evalCount),
                           evalCount := s.evalCount + 1, searchCount := s.searchCount + 1 })
    refine ⟨?_, ?_, ?_⟩
    · simpa [runLoopAgent, runSubAgents, iterative_refinement_loop_sub_agents,
             research_evaluator_step, enhanced_search_executor_step,
             Nat.add_assoc, Nat.add_comm 1 k] using h.1
    · simpa [runLoopAgent, runSubAgents, iterative_refinement_loop_sub_agents,
             research_evaluator_step, enhanced_search_executor_step,
             Nat.add_assoc, Nat.add_comm 1 k] using h.2.1
    · simpa [runLoopAgent, runSubAgents, iterative_refinement_loop_sub_agents,
             research_evaluator_step, enhanced_search_executor_step] using h.2.2

/-- C5: when every evaluation grades "fail", the loop as wired performs
exactly `max_iterations` evaluation steps and `max_iterations`
follow-up-search steps and halts in the terminal Exhausted state (no
failure is signalled: Exhausted is an ordinary termination), for every
iteration bound, with `max_iterations = 2` in the reference
configuration. -/
theorem loop_all_fail_exhausts (grades : Nat → Feedback)
    (_hfail : ∀ i, (grades i).grade = "fail") (n : Nat) :
    (runLoopAgent n (iterative_refinement_loop_sub_agents grades) initState).1.evalCount = n ∧
    (runLoopAgent n (iterative_refinement_loop_sub_agents grades) initState).1.searchCount = n ∧
    (runLoopAgent n (iterative_refinement_loop_sub_agents grades) initState).2
        = LoopStatus.Exhausted ∧
    iterative_refinement_loop_max_iterations = 2 := by
  have h := runLoopAgent_code_counts grades n initState
  refine ⟨?_, ?_, h.2.2, rfl⟩
  · simpa [initState] using h.1
  · simpa [initState] using h.2.1

theorem loop_all_fail_exhausts_witness :
    (runLoopAgent 2 (iterative_refinement_loop_sub_agents (fun _ => failFb)) initState).1.evalCount = 2 ∧
    (runLoopAgent 2 (iterative_refinement_loop_sub_agents (fun _ => failFb)) initState).1.searchCount = 2 ∧
    (runLoopAgent 2 (iterative_refinement_loop_sub_agents (fun _ => failFb)) initState).2
        = LoopStatus.Exhausted ∧
    iterative_refinement_loop_max_iterations = 2 :=
  loop_all_fail_exhausts (fun _ => failFb) (fun _ => rfl) 2

/-! ## C3: the worked rewrite example -/

/-- The registry of the spec's worked example: exactly `src-1` with
title "Example" and url "http://x". -/
def regC3 : Sources := [("src-1", ⟨"src-1", some "Example", "http://x", none, []⟩)]

/-- C3 counterexample: the rewrite does not produce the claimed output
"Fee [Example](http://x), Bar.". -/
theorem rewrite_example_counterexample :
    (citation_replacement_callback "Fee <cite source=\"src-1\"/> , Bar." regC3).1
      ≠ "Fee [Example](http://x), Bar." := by decide

/-- C3 amended: the rewrite produces "Fee  [Example](http://x), Bar."
with two spaces before the link — the draft's space before the marker
is kept and the replacement adds its own leading space; the comma is
glued to the link. -/
theorem rewrite_example_actual :
    citation_replacement_callback "Fee <cite source=\"src-1\"/> , Bar." regC3
      = ("Fee  [Example](http://x), Bar.", []) := by decide

/-! ## Key-preservation lemmas for the sources map -/

theorem appendClaim_map_fst (srcs : Sources) (sid : String) (c : SupportedClaim) :
    (appendClaim srcs sid c).map Prod.fst = srcs.map Prod.fst := by
  unfold appendClaim
  rw [List.map_map]
  apply List.map_congr_left
  intro p _
  by_cases h : p.1 = sid <;> simp [h]

theorem supportStep_map_fst (sup : Support) (info : List (Nat × String))
    (srcs : Sources) (p : Nat × Nat) :
    (supportStep sup info srcs p).map Prod.fst = srcs.map Prod.fst := by
  unfold supportStep
  cases h : alookup info p.2 with
  | none => rfl
  | some sid => exact appendClaim_map_fst srcs sid _

theorem processSupport_map_fst (info : List (Nat × String)) (sup : Support) :
    ∀ srcs : Sources, (processSupport info srcs sup).map Prod.fst = srcs.map Prod.fst := by
  unfold processSupport
  generalize (sup.grounding_chunk_indices.getD []).enum = ps
  induction ps with
  | nil => intro srcs; rfl
  | cons p ps ih =>
    intro srcs
    rw [List.foldl_cons, ih, supportStep_map_fst]

theorem foldl_processSupport_map_fst (info : List (Nat × String)) (sups : List Support) :
    ∀ srcs : Sources,
      (sups.foldl (processSupport info) srcs).map Prod.fst = srcs.map Prod.fst := by
  induction sups with
  | nil => intro srcs; rfl
  | cons sup sups ih =>
    intro srcs
    rw [List.foldl_cons, ih, processSupport_map_fst]

/-! ## C2: the registry invariants -/

/-- The short ids `src-1`, ..., `src-n`, in order. -/
def srcIds (n : Nat) : List String :=
  (List.range n).map (fun i => "src-" ++ toString (i + 1))

/-- The registry invariant of spec section 3: the URL keys of
`url_to_short_id` are pairwise distinct (every URL maps to exactly one
short id), its short ids are exactly `src-1 ... src-n` in mint order
with no gaps, and the keys of `sources` are exactly those short ids in
the same order. -/
def RegInv (reg : Registry) : Prop :=
  (reg.url_to_short_id.map Prod.fst).Nodup ∧
  reg.url_to_short_id.map Prod.snd = srcIds reg.url_to_short_id.length ∧
  reg.sources.map Prod.fst = reg.url_to_short_id.map Prod.snd

theorem srcIds_succ (n : Nat) :
    srcIds (n + 1) = srcIds n ++ ["src-" ++ toString (n + 1)] := by
  simp [srcIds, List.range_succ]

theorem mintChunk_inv {reg : Registry} {cnt : Nat} {info : List (Nat × String)}
    (h : RegInv reg) (hc : cnt = reg.url_to_short_id.length + 1) (ic : Nat × Chunk) :
    RegInv (mintChunk (reg, cnt, info) ic).1 ∧
    (mintChunk (reg, cnt, info) ic).2.1
      = (mintChunk (reg, cnt, info) ic).1.url_to_short_id.length + 1 := by
  obtain ⟨hnd, hids, hsk⟩ := h
  cases hw : ic.2.web with
  | none =>
    simp only [mintChunk, hw]
    exact ⟨⟨hnd, hids, hsk⟩, hc⟩
  | some web =>
    cases hl : alookup reg.url_to_short_id web.uri with
    | some sid =>
      simp only [mintChunk, hw, hl]
      exact ⟨⟨hnd, hids, hsk⟩, hc⟩
    | none =>
      have hmem : web.uri ∉ reg.url_to_short_id.map Prod.fst :=
        alookup_eq_none_iff.mp hl
      simp only [mintChunk, hw, hl]
      refine ⟨⟨?_, ?_, ?_⟩, ?_⟩
      · simp [List.nodup_append, hnd, hmem]
      · simp only [List.map_append, List.length_append, hids, hc]
        simp [srcIds_succ]
      · simp [hsk]
      · simp [hc]

theorem foldl_mintChunk_inv (l : List (Nat × Chunk)) :
    ∀ (reg : Registry) (cnt : Nat) (info : List (Nat × String)),
      RegInv reg → cnt = reg.url_to_short_id.length + 1 →
      RegInv (l.foldl mintChunk (reg, cnt, info)).1 ∧
      (l.foldl mintChunk (reg, cnt, info)).2.1
        = (l.foldl mintChunk (reg, cnt, info)).1.url_to_short_id.length + 1 := by
  induction l with
  | nil => intro reg cnt info h hc; exact ⟨h, hc⟩
  | cons x xs ih =>
    intro reg cnt info h hc
    have h' := @mintChunk_inv reg cnt info h hc x
    rw [List.foldl_cons]
    exact ih (mintChunk (reg, cnt, info) x).1 (mintChunk (reg, cnt, info) x).2.1
      (mintChunk (reg, cnt, info) x).2.2 h'.1 h'.2

/-- The shape of `processEvent` on a non-skipped event. -/
theorem processEvent_eq {e : GEvent} {md : GroundingMetadata}
    (hm : e.grounding_metadata = some md)
    (he : ¬ md.grounding_chunks.isEmpty = true) (reg : Registry) (cnt : Nat) :
    processEvent (reg, cnt) e
      = ({ url_to_short_id :=
             (md.grounding_chunks.enum.foldl mintChunk (reg, cnt, [])).1.url_to_short_id,
           sources := md.grounding_supports.foldl
             (processSupport
               (md.grounding_chunks.enum.foldl mintChunk (reg, cnt, [])).2.2)
             (md.grounding_chunks.enum.foldl mintChunk (reg, cnt, [])).1.sources },
         (md.grounding_chunks.enum.foldl mintChunk (reg, cnt, [])).2.1) := by
  simp only [processEvent, hm]
  rw [if_neg he]

theorem processEvent_inv {reg : Registry} {cnt : Nat} (h : RegInv reg)
    (hc : cnt = reg.url_to_short_id.length + 1) (e : GEvent) :
    RegInv (processEvent (reg, cnt) e).1 ∧
    (processEvent (reg, cnt) e).2
      = (processEvent (reg, cnt) e).1.url_to_short_id.length + 1 := by
  cases hm : e.grounding_metadata with
  | none => simp only [processEvent, hm]; exact ⟨h, hc⟩
  | some md =>
    by_cases he : md.grounding_chunks.isEmpty = true
    · simp only [processEvent, hm]
      rw [if_pos he]
      exact ⟨h, hc⟩
    · have H := foldl_mintChunk_inv md.grounding_chunks.enum reg cnt [] h hc
      obtain ⟨⟨hnd, hids, hsk⟩, hcnt⟩ := H
      rw [processEvent_eq hm he]
      refine ⟨⟨hnd, hids, ?_⟩, hcnt⟩
      rw [foldl_processSupport_map_fst]
      exact hsk

theorem record_inv {reg : Registry} (h : RegInv reg) (events : List GEvent) :
    RegInv (collect_research_sources_callback reg events) := by
  unfold collect_research_sources_callback
  have key : ∀ (es : List GEvent) (r : Registry) (c : Nat),
      RegInv r → c = r.url_to_short_id.length + 1 →
      RegInv (es.foldl processEvent (r, c)).1 ∧
      (es.foldl processEvent (r, c)).2
        = (es.foldl processEvent (r, c)).1.url_to_short_id.length + 1 := by
    intro es
    induction es with
    | nil => intro r c hr hcr; exact ⟨hr, hcr⟩
    | cons e es ih =>
      intro r c hr hcr
      have h' := processEvent_inv hr hcr e
      rw [List.foldl_cons]
      exact ih (processEvent (r, c) e).1 (processEvent (r, c) e).2 h'.1 h'.2
  exact (key events reg (reg.url_to_short_id.length + 1) h rfl).1

theorem regInv_empty : RegInv emptyRegistry :=
  ⟨List.nodup_nil, rfl, rfl⟩

/-! ## Which URLs end up as keys of `url_to_short_id` -/

/-- The URL contributed by one grounding chunk (none when the chunk has
no web reference). -/
def chunkUrls (c : Chunk) : List String :=
  match c.web with
  | none => []
  | some w => [w.uri]

/-- The URLs contributed by one event's web chunks. -/
def eventUrls (e : GEvent) : List String :=
  match e.grounding_metadata with
  | none => []
  | some md => md.grounding_chunks.flatMap chunkUrls

theorem mintChunk_mem_iff (reg : Registry) (cnt : Nat)
    (info : List (Nat × String)) (ic : Nat × Chunk) (u : String) :
    u ∈ (mintChunk (reg, cnt, info) ic).1.url_to_short_id.map Prod.fst ↔
      u ∈ reg.url_to_short_id.map Prod.fst ∨ u ∈ chunkUrls ic.2 := by
  cases hw : ic.2.web with
  | none => simp [mintChunk, hw, chunkUrls]
  | some web =>
    cases hl : alookup reg.url_to_short_id web.uri with
    | some sid =>
      have hmem := alookup_mem_of_some hl
      simp only [mintChunk, hw, hl, chunkUrls]
      constructor
      · exact fun hu => Or.inl hu
      · rintro (hu | hu)
        · exact hu
        · simp only [List.mem_singleton] at hu; subst hu; exact hmem
    | none =>
      simp [mintChunk, hw, hl, chunkUrls]

theorem foldl_mintChunk_mem_iff (l : List (Nat × Chunk)) :
    ∀ (reg : Registry) (cnt : Nat) (info : List (Nat × String)) (u : String),
      u ∈ (l.foldl mintChunk (reg, cnt, info)).1.url_to_short_id.map Prod.fst ↔
        u ∈ reg.url_to_short_id.map Prod.fst
          ∨ u ∈ (l.map Prod.snd).flatMap chunkUrls := by
  induction l with
  | nil => intro reg cnt info u; simp
  | cons x xs ih =>
    intro reg cnt info u
    rw [List.foldl_cons]
    have step := mintChunk_mem_iff reg cnt info x u
    have hx := ih (mintChunk (reg, cnt, info) x).1 (mintChunk (reg, cnt, info) x).2.1
      (mintChunk (reg, cnt, info) x).2.2 u
    rw [hx, step]
    simp [or_assoc, List.mem_flatMap]

theorem processEvent_mem_iff (reg : Registry) (cnt : Nat) (e : GEvent) (u : String) :
    u ∈ (processEvent (reg, cnt) e).1.url_to_short_id.map Prod.fst ↔
      u ∈ reg.url_to_short_id.map Prod.fst ∨ u ∈ eventUrls e := by
  cases hm : e.grounding_metadata with
  | none => simp [processEvent, hm, eventUrls]
  | some md =>
    by_cases he : md.grounding_chunks.isEmpty = true
    · have hnil : md.grounding_chunks = [] := List.isEmpty_iff.mp he
      simp only [processEvent, hm]
      rw [if_pos he]
      simp [eventUrls, hm, hnil]
    · have hx := foldl_mintChunk_mem_iff md.grounding_chunks.enum reg cnt [] u
      rw [List.enum_map_snd] at hx
      rw [processEvent_eq hm he]
      simp only [eventUrls, hm]
      exact hx

theorem record_mem_iff (events : List GEvent) :
    ∀ (reg : Registry) (cnt : Nat) (u : String),
      u ∈ (events.foldl processEvent (reg, cnt)).1.url_to_short_id.map Prod.fst ↔
        u ∈ reg.url_to_short_id.map Prod.fst ∨ u ∈ events.flatMap eventUrls := by
  induction events with
  | nil => intro reg cnt u; simp
  | cons e es ih =>
    intro reg cnt u
    rw [List.foldl_cons]
    have step := processEvent_mem_iff reg cnt e u
    have hx := ih (processEvent (reg, cnt) e).1 (processEvent (reg, cnt) e).2 u
    rw [hx, step]
    simp [or_assoc]

theorem collect_mem_iff (reg : Registry) (events : List GEvent) (u : String) :
    u ∈ (collect_research_sources_callback reg events).url_to_short_id.map Prod.fst ↔
      u ∈ reg.url_to_short_id.map Prod.fst ∨ u ∈ events.flatMap eventUrls :=
  record_mem_iff events reg (reg.url_to_short_id.length + 1) u

theorem mintChunk_counter (reg : Registry) (cnt : Nat) (info : List (Nat × String))
    (ic : Nat × Chunk) (hc : cnt = reg.url_to_short_id.length + 1) :
    (mintChunk (reg, cnt, info) ic).2.1
      = (mintChunk (reg, cnt, info) ic).1.url_to_short_id.length + 1 := by
  cases hw : ic.2.web with
  | none => simp only [mintChunk, hw]; exact hc
  | some web =>
    cases hl : alookup reg.url_to_short_id web.uri with
    | some sid => simp only [mintChunk, hw, hl]; exact hc
    | none => simp only [mintChunk, hw, hl]; simp [hc]

/-- A concrete event: one web chunk for url "http://x" and one support
for that chunk with no confidence scores. -/
def evX : GEvent :=
  { grounding_metadata := some
      { grounding_chunks := [⟨some ⟨"http://x", some "T", some "d.com"⟩⟩],
        grounding_supports := [⟨none, some [0], some ⟨"claim"⟩⟩] } }

/-- C2: after every sequence of calls to the registry's record
operation starting from the empty state, the URL keys of
`url_to_short_id` are pairwise distinct (every recorded URL maps to
exactly one short id), its short ids are exactly `src-1 ... src-n` in
strictly increasing mint order with no gaps (`n` the number of entries,
which equals the number of distinct recorded URLs by the first and
second conjuncts), the short-id keys of `sources` are exactly those
entries, the URL keys are exactly the URLs of the recorded web chunks,
and the minting counter, initialised to `len(url_to_short_id) + 1` on
entry (agent.py:80), still equals `len(url_to_short_id) + 1` after
every chunk step — hence equals it before any new ID is minted. -/
theorem registry_invariants :
    (∀ batches : List (List GEvent),
        RegInv (batches.foldl collect_research_sources_callback emptyRegistry)) ∧
    (∀ (batches : List (List GEvent)) (u : String),
        u ∈ (batches.foldl collect_research_sources_callback
              emptyRegistry).url_to_short_id.map Prod.fst
          ↔ u ∈ batches.flatMap (fun events => events.flatMap eventUrls)) ∧
    (∀ (reg : Registry) (cnt : Nat) (info : List (Nat × String)) (ic : Nat × Chunk),
        cnt = reg.url_to_short_id.length + 1 →
        (mintChunk (reg, cnt, info) ic).2.1
          = (mintChunk (reg, cnt, info) ic).1.url_to_short_id.length + 1) := by
  have hfold : ∀ batches : List (List GEvent), ∀ reg : Registry, RegInv reg →
      RegInv (batches.foldl collect_research_sources_callback reg) := by
    intro batches
    induction batches with
    | nil => intro reg h; exact h
    | cons b bs ih =>
      intro reg h
      rw [List.foldl_cons]
      exact ih _ (record_inv h b)
  have hmem : ∀ (batches : List (List GEvent)) (reg : Registry) (u : String),
      u ∈ (batches.foldl collect_research_sources_callback reg).url_to_short_id.map Prod.fst
        ↔ u ∈ reg.url_to_short_id.map Prod.fst
            ∨ u ∈ batches.flatMap (fun events => events.flatMap eventUrls) := by
    intro batches
    induction batches with
    | nil => intro reg u; simp
    | cons b bs ih =>
      intro reg u
      rw [List.foldl_cons, ih, collect_mem_iff]
      simp [or_assoc]
  refine ⟨fun batches => hfold batches emptyRegistry regInv_empty, ?_, ?_⟩
  · intro batches u
    rw [hmem]
    simp [emptyRegistry]
  · exact fun reg cnt info ic hc => mintChunk_counter reg cnt info ic hc

theorem registry_invariants_witness :
    RegInv ([[evX]].foldl collect_research_sources_callback emptyRegistry) ∧
    ("http://x" ∈ ([[evX]].foldl collect_research_sources_callback
          emptyRegistry).url_to_short_id.map Prod.fst
        ↔ "http://x" ∈ [[evX]].flatMap (fun events => events.flatMap eventUrls)) ∧
    (mintChunk (emptyRegistry, 1, [])
        (0, ⟨some ⟨"http://x", some "T", some "d.com"⟩⟩)).2.1
      = (mintChunk (emptyRegistry, 1, [])
          (0, ⟨some ⟨"http://x", some "T", some "d.com"⟩⟩)).1.url_to_short_id.length + 1 :=
  ⟨registry_invariants.1 [[evX]],
   registry_invariants.2.1 [[evX]] "http://x",
   registry_invariants.2.2 emptyRegistry 1 []
     (0, ⟨some ⟨"http://x", some "T", some "d.com"⟩⟩) rfl⟩

/-! ## C4: repeated record calls -/

/-- `s'` differs from `s` only by claims appended to existing sources:
the keys are the same in the same order, and each entry's source is
unchanged apart from entries appended to its `supported_claims`. -/
def AppendOnly (s s' : Sources) : Prop :=
  s'.map Prod.fst = s.map Prod.fst ∧
  ∀ sid src, alookup s sid = some src →
    ∃ extra, alookup s' sid
      = some { src with supported_claims := src.supported_claims ++ extra }

theorem appendOnly_refl (s : Sources) : AppendOnly s s := by
  refine ⟨rfl, fun sid src h => ⟨[], ?_⟩⟩
  rw [List.append_nil]
  exact h

theorem appendOnly_trans {s t u : Sources} (h1 : AppendOnly s t)
    (h2 : AppendOnly t u) : AppendOnly s u := by
  refine ⟨h2.1.trans h1.1, fun sid src h => ?_⟩
  obtain ⟨e1, ht⟩ := h1.2 sid src h
  obtain ⟨e2, hu⟩ := h2.2 sid _ ht
  refine ⟨e1 ++ e2, ?_⟩
  rw [hu, List.append_assoc]

theorem alookup_appendClaim_self {s : Sources} {sid : String} {src : Source}
    (c : SupportedClaim) (h : alookup s sid = some src) :
    alookup (appendClaim s sid c) sid
      = some { src with supported_claims := src.supported_claims ++ [c] } := by
  induction s with
  | nil => simp [alookup] at h
  | cons p ps ih =>
    by_cases hk : p.1 = sid
    · have hf : List.find? (fun q => q.1 == sid) (p :: ps) = some p :=
        List.find?_cons_of_pos _ (by simpa using hk)
      have hsrc : p.2 = src := by
        simp only [alookup, hf, Option.map_some] at h
        exact Option.some.inj h
      have hap : appendClaim (p :: ps) sid c
          = (p.1, { p.2 with supported_claims := p.2.supported_claims ++ [c] })
              :: appendClaim ps sid c := by
        simp [appendClaim, hk]
      rw [hap]
      have hf2 : List.find? (fun q => q.1 == sid)
          ((p.1, { p.2 with supported_claims := p.2.supported_claims ++ [c] })
            :: appendClaim ps sid c)
          = some (p.1, { p.2 with supported_claims := p.2.supported_claims ++ [c] }) :=
        List.find?_cons_of_pos _ (by simpa using hk)
      simp only [alookup, hf2, Option.map_some]
      rw [hsrc]
      rfl
    · have hf : List.find? (fun q => q.1 == sid) (p :: ps)
          = List.find? (fun q => q.1 == sid) ps :=
        List.find?_cons_of_neg _ (by simpa using hk)
      have h' : alookup ps sid = some src := by
        simpa only [alookup, hf] using h
      have hap : appendClaim (p :: ps) sid c = p :: appendClaim ps sid c := by
        simp [appendClaim, hk]
      rw [hap]
      have hf2 : List.find? (fun q => q.1 == sid) (p :: appendClaim ps sid c)
          = List.find? (fun q => q.1 == sid) (appendClaim ps sid c) :=
        List.find?_cons_of_neg _ (by simpa using hk)
      simpa only [alookup, hf2] using ih h'

theorem alookup_appendClaim_ne {s : Sources} {sid sid' : String}
    (hne : sid' ≠ sid) (c : SupportedClaim) :
    alookup (appendClaim s sid c) sid' = alookup s sid' := by
  induction s with
  | nil => rfl
  | cons p ps ih =>
    by_cases hk : p.1 = sid
    · have hap : appendClaim (p :: ps) sid c
          = (p.1, { p.2 with supported_claims := p.2.supported_claims ++ [c] })
              :: appendClaim ps sid c := by
        simp [appendClaim, hk]
      have hne' : ¬ (p.1 == sid') = true := by
        simp only [beq_iff_eq]
        rw [hk]
        exact fun hx => hne hx.symm
      rw [hap]
      have hf1 : List.find? (fun q => q.1 == sid')
          ((p.1, { p.2 with supported_claims := p.2.supported_claims ++ [c] })
            :: appendClaim ps sid c)
          = List.find? (fun q => q.1 == sid') (appendClaim ps sid c) :=
        List.find?_cons_of_neg _ hne'
      have hf2 : List.find? (fun q => q.1 == sid') (p :: ps)
          = List.find? (fun q => q.1 == sid') ps :=
        List.find?_cons_of_neg _ hne'
      simp only [alookup, hf1, hf2] at ih ⊢
      exact ih
    · have hap : appendClaim (p :: ps) sid c = p :: appendClaim ps sid c := by
        simp [appendClaim, hk]
      rw [hap]
      by_cases hk' : p.1 = sid'
      · have hf1 : List.find? (fun q => q.1 == sid') (p :: appendClaim ps sid c) = some p :=
          List.find?_cons_of_pos _ (by simpa using hk')
        have hf2 : List.find? (fun q => q.1 == sid') (p :: ps) = some p :=
          List.find?_cons_of_pos _ (by simpa using hk')
        simp only [alookup, hf1, hf2]
      · have hf1 : List.find? (fun q => q.1 == sid') (p :: appendClaim ps sid c)
            = List.find? (fun q => q.1 == sid') (appendClaim ps sid c) :=
          List.find?_cons_of_neg _ (by simpa using hk')
        have hf2 : List.find? (fun q => q.1 == sid') (p :: ps)
            = List.find? (fun q => q.1 == sid') ps :=
          List.find?_cons_of_neg _ (by simpa using hk')
        simp only [alookup, hf1, hf2] at ih ⊢
        exact ih

theorem appendOnly_appendClaim (s : Sources) (sid : String) (c : SupportedClaim) :
    AppendOnly s (appendClaim s sid c) := by
  refine ⟨appendClaim_map_fst s sid c, fun sid' src h => ?_⟩
  by_cases hk : sid' = sid
  · subst hk
    exact ⟨[c], alookup_appendClaim_self c h⟩
  · refine ⟨[], ?_⟩
    rw [alookup_appendClaim_ne hk c, List.append_nil]
    exact h

theorem appendOnly_supportStep (sup : Support) (info : List (Nat × String))
    (srcs : Sources) (p : Nat × Nat) :
    AppendOnly srcs (supportStep sup info srcs p) := by
  unfold supportStep
  cases alookup info p.2 with
  | none => exact appendOnly_refl srcs
  | some sid => exact appendOnly_appendClaim srcs sid _

theorem appendOnly_processSupport (info : List (Nat × String)) (sup : Support) :
    ∀ srcs : Sources, AppendOnly srcs (processSupport info srcs sup) := by
  unfold processSupport
  generalize (sup.grounding_chunk_indices.getD []).enum = ps
  induction ps with
  | nil => intro srcs; exact appendOnly_refl srcs
  | cons p ps ih =>
    intro srcs
    rw [List.foldl_cons]
    exact appendOnly_trans (appendOnly_supportStep sup info srcs p)
      (ih (supportStep sup info srcs p))

theorem appendOnly_foldl_supports (info : List (Nat × String)) (sups : List Support) :
    ∀ srcs : Sources, AppendOnly srcs (sups.foldl (processSupport info) srcs) := by
  induction sups with
  | nil => intro srcs; exact appendOnly_refl srcs
  | cons sup sups ih =>
    intro srcs
    rw [List.foldl_cons]
    exact appendOnly_trans (appendOnly_processSupport info sup srcs)
      (ih (processSupport info srcs sup))

theorem mintChunk_known {reg : Registry} {cnt : Nat} {info : List (Nat × String)}
    {ic : Nat × Chunk}
    (h : ∀ u ∈ chunkUrls ic.2, u ∈ reg.url_to_short_id.map Prod.fst) :
    ∃ info', mintChunk (reg, cnt, info) ic = (reg, cnt, info') := by
  cases hw : ic.2.web with
  | none => exact ⟨info, by simp [mintChunk, hw]⟩
  | some web =>
    have hu : web.uri ∈ reg.url_to_short_id.map Prod.fst := by
      apply h
      simp [chunkUrls, hw]
    obtain ⟨v, hv⟩ := alookup_isSome_of_mem hu
    exact ⟨info ++ [(ic.1, v)], by simp [mintChunk, hw, hv]⟩

theorem foldl_mintChunk_known (l : List (Nat × Chunk)) :
    ∀ (reg : Registry) (cnt : Nat) (info : List (Nat × String)),
      (∀ u ∈ (l.map Prod.snd).flatMap chunkUrls, u ∈ reg.url_to_short_id.map Prod.fst) →
      ∃ info', l.foldl mintChunk (reg, cnt, info) = (reg, cnt, info') := by
  induction l with
  | nil => intro reg cnt info _; exact ⟨info, rfl⟩
  | cons x xs ih =>
    intro reg cnt info h
    have hx : ∀ u ∈ chunkUrls x.2, u ∈ reg.url_to_short_id.map Prod.fst := by
      intro u hu
      apply h
      simp only [List.map_cons, List.flatMap_cons, List.mem_append]
      exact Or.inl hu
    obtain ⟨i1, hi1⟩ := @mintChunk_known reg cnt info x hx
    have hxs : ∀ u ∈ (xs.map Prod.snd).flatMap chunkUrls,
        u ∈ reg.url_to_short_id.map Prod.fst := by
      intro u hu
      apply h
      simp only [List.map_cons, List.flatMap_cons, List.mem_append]
      exact Or.inr hu
    rw [List.foldl_cons, hi1]
    exact ih reg cnt i1 hxs

theorem processEvent_known (e : GEvent) (reg : Registry) (cnt : Nat)
    (h : ∀ u ∈ eventUrls e, u ∈ reg.url_to_short_id.map Prod.fst) :
    (processEvent (reg, cnt) e).1.url_to_short_id = reg.url_to_short_id ∧
    (processEvent (reg, cnt) e).2 = cnt ∧
    AppendOnly reg.sources (processEvent (reg, cnt) e).1.sources := by
  cases hm : e.grounding_metadata with
  | none =>
    have hid : processEvent (reg, cnt) e = (reg, cnt) := by
      simp only [processEvent, hm]
    rw [hid]
    exact ⟨rfl, rfl, appendOnly_refl _⟩
  | some md =>
    by_cases he : md.grounding_chunks.isEmpty = true
    · have hid : processEvent (reg, cnt) e = (reg, cnt) := by
        simp only [processEvent, hm]
        rw [if_pos he]
      rw [hid]
      exact ⟨rfl, rfl, appendOnly_refl _⟩
    · have hurls : ∀ u ∈ (md.grounding_chunks.enum.map Prod.snd).flatMap chunkUrls,
          u ∈ reg.url_to_short_id.map Prod.fst := by
        rw [List.enum_map_snd]
        intro u hu
        apply h
        simp only [eventUrls, hm]
        exact hu
      obtain ⟨info', hi⟩ :=
        foldl_mintChunk_known md.grounding_chunks.enum reg cnt [] hurls
      rw [processEvent_eq hm he, hi]
      exact ⟨rfl, rfl, appendOnly_foldl_supports info' md.grounding_supports reg.sources⟩

theorem foldl_processEvent_known (events : List GEvent) :
    ∀ (reg : Registry) (cnt : Nat),
      (∀ u ∈ events.flatMap eventUrls, u ∈ reg.url_to_short_id.map Prod.fst) →
      (events.foldl processEvent (reg, cnt)).1.url_to_short_id = reg.url_to_short_id ∧
      AppendOnly reg.sources (events.foldl processEvent (reg, cnt)).1.sources := by
  induction events with
  | nil => intro reg cnt _; exact ⟨rfl, appendOnly_refl _⟩
  | cons e es ih =>
    intro reg cnt h
    have he : ∀ u ∈ eventUrls e, u ∈ reg.url_to_short_id.map Prod.fst := by
      intro u hu
      apply h
      simp only [List.flatMap_cons, List.mem_append]
      exact Or.inl hu
    have hstep := processEvent_known e reg cnt he
    have hes : ∀ u ∈ es.flatMap eventUrls,
        u ∈ (processEvent (reg, cnt) e).1.url_to_short_id.map Prod.fst := by
      rw [hstep.1]
      intro u hu
      apply h
      simp only [List.flatMap_cons, List.mem_append]
      exact Or.inr hu
    have hrec := ih (processEvent (reg, cnt) e).1 (processEvent (reg, cnt) e).2 hes
    rw [List.foldl_cons]
    exact ⟨hrec.1.trans hstep.1, appendOnly_trans hstep.2.2 hrec.2⟩

theorem record_known (reg : Registry) (events : List GEvent)
    (h : ∀ u ∈ events.flatMap eventUrls, u ∈ reg.url_to_short_id.map Prod.fst) :
    (collect_research_sources_callback reg events).url_to_short_id
        = reg.url_to_short_id ∧
    AppendOnly reg.sources (collect_research_sources_callback reg events).sources :=
  foldl_processEvent_known events reg (reg.url_to_short_id.length + 1) h

/-- C4 amended: calling record again with an already-fully-processed
batch does not increase the count of distinct short ids, leaves
`url_to_short_id` — hence every known URL's short id — unchanged, and
creates no new or duplicate Source entry (the `sources` keys are
unchanged); however the repeated call is not claim-preserving: it
re-appends one claim per support-chunk reference of the batch, so the
`supported_claims` of existing sources grow rather than stay unchanged. -/
theorem record_repeat_append_only (reg : Registry) (B : List GEvent) :
    (collect_research_sources_callback
        (collect_research_sources_callback reg B) B).url_to_short_id
      = (collect_research_sources_callback reg B).url_to_short_id ∧
    AppendOnly (collect_research_sources_callback reg B).sources
      (collect_research_sources_callback
        (collect_research_sources_callback reg B) B).sources := by
  apply record_known
  intro u hu
  rw [collect_mem_iff]
  exact Or.inr hu

theorem record_repeat_append_only_witness :
    (collect_research_sources_callback
        (collect_research_sources_callback emptyRegistry [evX]) [evX]).url_to_short_id
      = (collect_research_sources_callback emptyRegistry [evX]).url_to_short_id ∧
    AppendOnly (collect_research_sources_callback emptyRegistry [evX]).sources
      (collect_research_sources_callback
        (collect_research_sources_callback emptyRegistry [evX]) [evX]).sources :=
  record_repeat_append_only emptyRegistry [evX]

/-- C4 counterexample: after record has fully processed the batch
`[evX]`, recording the same batch again leaves the short-id count at
one but appends a duplicate claim to src-1's source — the Source of the
already-known URL changes although the repeated batch contains no new
support. -/
theorem record_repeat_counterexample :
    (collect_research_sources_callback emptyRegistry [evX]).url_to_short_id.length = 1 ∧
    (collect_research_sources_callback
        (collect_research_sources_callback emptyRegistry [evX]) [evX]).url_to_short_id.length = 1 ∧
    (alookup (collect_research_sources_callback emptyRegistry [evX]).sources "src-1").map
        (fun s => s.supported_claims.length) = some 1 ∧
    (alookup (collect_research_sources_callback
        (collect_research_sources_callback emptyRegistry [evX]) [evX]).sources "src-1").map
        (fun s => s.supported_claims.length) = some 2 := by
  decide

/-! ## C8: which claims a support appends -/

/-- The claim recorded for the `i`-th chunk index of a support, as C8
describes it: the `i`-th confidence score aligned positionally with the
`i`-th chunk index, defaulting to 0.5 when the score list is absent or
shorter than the index list; the segment text, or the empty string for
a support with no segment. -/
def claimOfSupport (support : Support) (i : Nat) : SupportedClaim where
  text_segment :=
    match support.segment with
    | some seg => seg.text
    | none => ""
  confidence :=
    match support.confidence_scores with
    | none => (1 : ℚ) / 2
    | some scores =>
      if h : i < scores.length then scores.get ⟨i, h⟩ else (1 : ℚ) / 2

/-- The claims a single support contributes to the source `sid`: one
claim per chunk-index reference whose chunk index is present in the
local mapping with value `sid`, in order. -/
def specClaims (info : List (Nat × String)) (support : Support) (sid : String) :
    List SupportedClaim :=
  (support.grounding_chunk_indices.getD []).enum.filterMap
    (fun p =>
      if alookup info p.2 = some sid then some (claimOfSupport support p.1)
      else none)

theorem supportStep_eq (support : Support) (info : List (Nat × String))
    (acc : Sources) (p : Nat × Nat) :
    supportStep support info acc p
      = match alookup info p.2 with
        | none => acc
        | some sid => appendClaim acc sid (claimOfSupport support p.1) := by
  unfold supportStep claimOfSupport
  cases alookup info p.2 with
  | none => rfl
  | some sid =>
    cases hs : support.confidence_scores with
    | none => simp [hs]
    | some scores => simp [hs]

theorem foldl_supportStep_claims (support : Support) (info : List (Nat × String))
    (sid : String) (ps : List (Nat × Nat)) :
    ∀ (srcs : Sources) (src : Source), alookup srcs sid = some src →
      alookup (ps.foldl (supportStep support info) srcs) sid
        = some { src with supported_claims := src.supported_claims
            ++ ps.filterMap (fun p =>
                 if alookup info p.2 = some sid then some (claimOfSupport support p.1)
                 else none) } := by
  induction ps with
  | nil =>
    intro srcs src h
    rw [List.filterMap_nil, List.append_nil]
    exact h
  | cons p ps ih =>
    intro srcs src h
    rw [List.foldl_cons, supportStep_eq]
    cases hl : alookup info p.2 with
    | none =>
      have hres := ih srcs src h
      rw [hres]
      have hf : (if alookup info p.2 = some sid
          then some (claimOfSupport support p.1) else none) = none := by
        rw [hl]
        simp
      simp [List.filterMap_cons, hf]
    | some sid' =>
      by_cases hss : sid' = sid
      · subst hss
        have hstep := alookup_appendClaim_self (claimOfSupport support p.1) h
        have hres := ih (appendClaim srcs sid' (claimOfSupport support p.1)) _ hstep
        rw [hres]
        have hf : (if alookup info p.2 = some sid'
            then some (claimOfSupport support p.1) else none)
            = some (claimOfSupport support p.1) := by
          rw [hl]
          simp
        simp [List.filterMap_cons, hf, List.append_assoc]
      · have hne : sid ≠ sid' := fun hx => hss hx.symm
        have hstep : alookup (appendClaim srcs sid' (claimOfSupport support p.1)) sid
            = some src := by
          rw [alookup_appendClaim_ne hne]
          exact h
        have hres := ih (appendClaim srcs sid' (claimOfSupport support p.1)) src hstep
        rw [hres]
        have hf : (if alookup info p.2 = some sid
            then some (claimOfSupport support p.1) else none) = none := by
          rw [hl]
          simp [hss]
        simp [List.filterMap_cons, hf]

/-- C8: for every support, the record operation appends to the source
of each referenced chunk index present in the local mapping exactly one
claim per reference, in order: the `i`-th claim uses the `i`-th
confidence score aligned positionally with the `i`-th chunk index,
defaulting to 0.5 when the score list is absent or shorter than the
chunk-index list, and the segment text, or the empty string when the
support has no segment. -/
theorem support_claims_appended (info : List (Nat × String)) (srcs : Sources)
    (support : Support) (sid : String) (src : Source)
    (h : alookup srcs sid = some src) :
    alookup (processSupport info srcs support) sid
      = some { src with supported_claims := src.supported_claims ++ specClaims info support sid } :=
  foldl_supportStep_claims support info sid
    (support.grounding_chunk_indices.getD []).enum srcs src h

theorem support_claims_appended_witness :
    alookup (processSupport [(0, "src-1"), (1, "src-1")]
        [("src-1", ⟨"src-1", some "T", "http://x", some "d.com", []⟩)]
        ⟨some [(9 : ℚ)/10], some [0, 1, 5], some ⟨"seg"⟩⟩) "src-1"
      = some ⟨"src-1", some "T", "http://x", some "d.com",
          [⟨"seg", (9 : ℚ)/10⟩, ⟨"seg", (1 : ℚ)/2⟩]⟩ := by
  have h := support_claims_appended [(0, "src-1"), (1, "src-1")]
    [("src-1", ⟨"src-1", some "T", "http://x", some "d.com", []⟩)]
    ⟨some [(9 : ℚ)/10], some [0, 1, 5], some ⟨"seg"⟩⟩ "src-1"
    ⟨"src-1", some "T", "http://x", some "d.com", []⟩ rfl
  rw [h]
  rfl

/-! ## Length and capture properties of the citation matcher -/

theorem dropWhile_length_le (p : Char → Bool) (l : List Char) :
    (l.dropWhile p).length ≤ l.length :=
  (List.dropWhile_sublist p).length_le

theorem dropQuoteOpt_length_le (l : List Char) :
    (dropQuoteOpt l).length ≤ l.length := by
  cases l with
  | nil => simp [dropQuoteOpt]
  | cons c rest =>
    simp only [dropQuoteOpt]
    by_cases h : (c == '"' || c == '\'') = true
    · rw [if_pos h]
      simp [Nat.le_succ]
    · rw [if_neg h]

theorem expectStr_length :
    ∀ {e l t : List Char}, expectStr e l = some t → t.length + e.length = l.length := by
  intro e
  induction e with
  | nil =>
    intro l t h
    simp only [expectStr] at h
    injection h with h
    subst h
    simp
  | cons c0 cs ih =>
    intro l t h
    cases l with
    | nil => simp [expectStr] at h
    | cons x xs =>
      simp only [expectStr] at h
      by_cases hx : (x == c0) = true
      · rw [if_pos hx] at h
        have := ih h
        simp only [List.length_cons]
        omega
      · rw [if_neg hx] at h
        simp at h

theorem ws1_length {l t : List Char} (h : ws1 l = some t) : t.length < l.length := by
  cases l with
  | nil => simp [ws1] at h
  | cons c rest =>
    simp only [ws1] at h
    by_cases hc : isPySpace c = true
    · rw [if_pos hc] at h
      injection h with h
      subst h
      exact Nat.lt_succ_of_le (dropWhile_length_le _ _)
    · rw [if_neg hc] at h
      simp at h

/-- Every successful match consumes at least one character, captures a
nonempty digit string, and captures only digits. -/
theorem matchCiteFrom_spec {l : List Char} {m : CiteMatch}
    (h : matchCiteFrom l = some m) :
    m.remaining.length < l.length ∧ m.digits ≠ [] ∧ ∀ c ∈ m.digits, c.isDigit = true := by
  unfold matchCiteFrom at h
  obtain ⟨l1, h1, h⟩ := Option.bind_eq_some.mp h
  obtain ⟨l2, h2, h⟩ := Option.bind_eq_some.mp h
  obtain ⟨l3, h3, h⟩ := Option.bind_eq_some.mp h
  obtain ⟨l4, h4, h⟩ := Option.bind_eq_some.mp h
  obtain ⟨l5, h5, h⟩ := Option.bind_eq_some.mp h
  by_cases hd : (l5.takeWhile Char.isDigit).isEmpty = true
  · rw [if_pos hd] at h
    simp at h
  · rw [if_neg hd] at h
    obtain ⟨l6, h6, hm⟩ := Option.map_eq_some'.mp h
    subst hm
    refine ⟨?_, ?_, ?_⟩
    · have e1 := expectStr_length h1
      have e2 := ws1_length h2
      have e3 := expectStr_length h3
      have e4 := expectStr_length h4
      have e5 := expectStr_length h5
      have e6 := expectStr_length h6
      have n1 : ("<cite".data).length = 5 := rfl
      have n3 : ("source".data).length = 6 := rfl
      have n4 : ("=".data).length = 1 := rfl
      have n5 : ("src-".data).length = 4 := rfl
      have n6 : ("/>".data).length = 2 := rfl
      have d4 : (dropWs l3).length ≤ l3.length := dropWhile_length_le _ _
      have d5 : (dropWs (dropQuoteOpt (dropWs l4))).length ≤ l4.length :=
        le_trans (dropWhile_length_le _ _)
          (le_trans (dropQuoteOpt_length_le _) (dropWhile_length_le _ _))
      have d6 : (dropWs (dropQuoteOpt (dropWs (l5.dropWhile Char.isDigit)))).length
          ≤ l5.length :=
        le_trans (dropWhile_length_le _ _)
          (le_trans (dropQuoteOpt_length_le _)
            (le_trans (dropWhile_length_le _ _) (dropWhile_length_le _ _)))
      simp only [CiteMatch.remaining]
      omega
    · simpa [List.isEmpty_iff] using hd
    · intro c hc
      exact List.mem_takeWhile_imp hc

/-! ## C7: unknown markers are stripped

The scan of `re.sub` decomposes the draft into literal characters and
recognized citation markers; the substitution renders each piece, so
every recognized marker is replaced by exactly its `tag_replacer`
output — the empty string, plus one logged warning, when the short id
is not in the registry. -/

inductive DraftPiece where
  | lit (c : Char)
  | marker (m : CiteMatch) (matchedText : String)
  deriving Repr, DecidableEq

/-- The leftmost-match scan of the draft, recording each recognized
marker (with its matched text) and every other character. -/
def decompGo : Nat → List Char → List DraftPiece
  | 0, _ => []
  | _ + 1, [] => []
  | fuel + 1, c :: rest =>
    match matchCiteFrom (c :: rest) with
    | some m =>
      .marker m ((c :: rest).take ((c :: rest).length - m.remaining.length)).asString
        :: decompGo fuel m.remaining
    | none => .lit c :: decompGo fuel rest

def decomp (draft : String) : List DraftPiece :=
  decompGo draft.data.length draft.data

/-- How the substitution renders one piece: output characters and
logged warnings. -/
def renderPiece (sources : Sources) : DraftPiece → List Char × List String
  | .lit c => ([c], [])
  | .marker m t =>
    ((tag_replacer sources m t).1.data,
     (tag_replacer sources m t).2.elim [] (fun w => [w]))

def renderPieces (sources : Sources) (ps : List DraftPiece) : List Char × List String :=
  ps.foldr
    (fun p acc =>
      ((renderPiece sources p).1 ++ acc.1, (renderPiece sources p).2 ++ acc.2))
    ([], [])

theorem substCitesGo_eq_render (sources : Sources) :
    ∀ (fuel : Nat) (l : List Char), l.length ≤ fuel →
      substCitesGo sources fuel l = renderPieces sources (decompGo fuel l) := by
  intro fuel
  induction fuel with
  | zero =>
    intro l hl
    have : l = [] := List.length_eq_zero.mp (Nat.le_zero.mp hl)
    subst this
    rfl
  | succ k ih =>
    intro l hl
    cases l with
    | nil => rfl
    | cons c rest =>
      cases hm : matchCiteFrom (c :: rest) with
      | some m =>
        have hlen := (matchCiteFrom_spec hm).1
        have hl' : rest.length + 1 ≤ k + 1 := by simpa using hl
        have hlen' : m.remaining.length < rest.length + 1 := by simpa using hlen
        have hrec := ih m.remaining (by omega)
        simp only [substCitesGo, decompGo, hm, renderPieces, List.foldr_cons]
        rw [hrec]
        rfl
      | none =>
        have hrec := ih rest (by simp only [List.length_cons] at hl; omega)
        simp only [substCitesGo, decompGo, hm, renderPieces, List.foldr_cons]
        rw [hrec]
        rfl

/-- C7: for every draft and registry the substitution is exactly the
piecewise rendering of the scan decomposition; every recognized marker
whose short id is not in the registry renders to the empty string while
one diagnostic warning is logged, so the marker is removed entirely and
nothing of it survives into the final report; processing is total and
continues past such markers.  Concretely, the unknown marker src-99 is
stripped from "A <cite source=\"src-99\" />." with a warning, leaving "A.". -/
theorem unknown_citation_stripped :
    (∀ (sources : Sources) (draft : String),
        substCites sources draft
          = ((renderPieces sources (decomp draft)).1.asString,
             (renderPieces sources (decomp draft)).2)) ∧
    (∀ (sources : Sources) (m : CiteMatch) (t : String),
        alookup sources m.sid = none →
        renderPiece sources (.marker m t)
          = ([], ["Invalid citation tag found and removed: " ++ t])) ∧
    citation_replacement_callback "A <cite source=\"src-99\" />." []
      = ("A.", ["Invalid citation tag found and removed: <cite source=\"src-99\" />"]) := by
  refine ⟨?_, ?_, ?_⟩
  · intro sources draft
    unfold substCites decomp
    rw [substCitesGo_eq_render sources draft.data.length draft.data le_rfl]
  · intro sources m t h
    simp [renderPiece, tag_replacer, h]
  · decide

theorem unknown_citation_stripped_witness :
    substCites [] "q"
      = ((renderPieces [] (decomp "q")).1.asString, (renderPieces [] (decomp "q")).2) ∧
    renderPiece [] (.marker ⟨['9', '9'], []⟩ "tag")
      = ([], ["Invalid citation tag found and removed: tag"]) :=
  ⟨unknown_citation_stripped.1 [] "q",
   unknown_citation_stripped.2.1 [] ⟨['9', '9'], []⟩ "tag" rfl⟩

/-- C10: every successful match of the citation regex captures a short
id of the form src-<digits> with at least one digit, so a cite tag
whose source attribute value is not of that form is never recognized,
hence neither resolved nor removed by the substitution; concretely a
draft containing <cite source="abc"/> passes through the rewrite with
the tag intact, altered only by the punctuation-spacing pass. -/
theorem unrecognized_tag_preserved :
    (∀ (l : List Char) (m : CiteMatch), matchCiteFrom l = some m →
        ∃ ds : List Char, ds ≠ [] ∧ (∀ c ∈ ds, c.isDigit = true) ∧
          m.sid = "src-" ++ ds.asString) ∧
    citation_replacement_callback "A <cite source=\"abc\"/> , B" regC3
      = ("A <cite source=\"abc\"/>, B", []) := by
  constructor
  · intro l m h
    obtain ⟨-, hne, hdig⟩ := matchCiteFrom_spec h
    exact ⟨m.digits, hne, hdig, rfl⟩
  · decide

theorem unrecognized_tag_preserved_witness :
    ∃ ds : List Char, ds ≠ [] ∧ (∀ c ∈ ds, c.isDigit = true) ∧
      CiteMatch.sid ⟨['1'], []⟩ = "src-" ++ ds.asString :=
  unrecognized_tag_preserved.1 ("<cite source=\"src-1\"/>".data) ⟨['1'], []⟩ rfl

/-! ## C9: what the replacement displays -/

/-- One event carrying a single web chunk. -/
def mkWebEvent (uri : String) (title domain : Option String) : GEvent :=
  { grounding_metadata := some
      { grounding_chunks := [⟨some ⟨uri, title, domain⟩⟩],
        grounding_supports := [] } }

theorem substCites_single_marker (src : Source) :
    substCites [("src-1", src)] "<cite source=\"src-1\"/>"
      = (" [" ++ pyRender src.title ++ "](" ++ src.url ++ ")", []) := by
  have h1 : substCites [("src-1", src)] "<cite source=\"src-1\"/>"
      = (((tag_replacer [("src-1", src)] ⟨['1'], []⟩
             "<cite source=\"src-1\"/>").1.data ++ []).asString,
         (tag_replacer [("src-1", src)] ⟨['1'], []⟩
             "<cite source=\"src-1\"/>").2.elim [] (fun w => [w]) ++ []) := rfl
  have h2 : tag_replacer [("src-1", src)] ⟨['1'], []⟩ "<cite source=\"src-1\"/>"
      = (" [" ++ pyRender src.title ++ "](" ++ src.url ++ ")", none) := rfl
  rw [h1, h2]
  simp only [List.append_nil]
  rfl

/-- C9 amended: a recognized marker whose short id is found in a
registry built by the record operation is replaced by a single leading
space followed by [display](url), where display is the stored title
rendered as text — i.e. the chunk's web title, a missing (None) title
rendering as the Python text "None".  The domain and short-id defaults
of the `dict.get` chain apply only to source dicts lacking the title or
domain keys, which registry-built sources never lack. -/
theorem display_is_stored_title (uri : String) (title domain : Option String) :
    (substCites
        (collect_research_sources_callback emptyRegistry
          [mkWebEvent uri title domain]).sources
        "<cite source=\"src-1\"/>").1
      = " [" ++ pyRender title ++ "](" ++ uri ++ ")" := by
  have ht : (if title ≠ domain then title else domain) = title := by
    by_cases h : title = domain <;> simp [h]
  have hreg : (collect_research_sources_callback emptyRegistry
        [mkWebEvent uri title domain]).sources
      = [("src-1", ⟨"src-1", if title ≠ domain then title else domain, uri, domain, []⟩)] := rfl
  rw [hreg, ht, substCites_single_marker ⟨"src-1", title, uri, domain, []⟩]

/-- C9 counterexample: build the registry from a chunk whose web title
is None while its domain is "d.com"; the claim's fallback predicts the
display "d.com", but the rewrite renders the stored None as the literal
text "None". -/
theorem display_fallback_counterexample :
    (substCites (collect_research_sources_callback emptyRegistry
        [mkWebEvent "http://x" none (some "d.com")]).sources
      "<cite source=\"src-1\"/>").1 = " [None](http://x)" ∧
    (" [None](http://x)" : String) ≠ " [d.com](http://x)" := by
  constructor
  · rfl
  · decide
